import Mathlib

/-!
# gochain: hash-chained ledger over a relational store

A shallow embedding of `app.go`: the block model (`Block`, `NewBlock`,
`Block.SetHash`), the `blockchain` relation created by `initDB`, the write
handler `AddBlock` and the read handler `DisplayBlockChain`.

Conventions of the embedding
* a Go `[]byte` is a `List UInt8`; a Go `string` that reaches the block model
  is valid UTF-8 (a literal, or the output of the JSON decoder) and is a
  `String`, its bytes being `String.toUTF8`;
* `int64` timestamps are `Int`; the wall clock read by `NewBlock` is an
  explicit argument;
* `crypto/sha256` is embedded as the FIPS 180-4 function on 32-bit words kept
  as `Nat` reduced modulo `2 ^ 32`;
* the SQL statements act on an explicit table value; every statement is one
  atomic step and the connection is assumed to be available.
-/

namespace Gochain

/-- A Go byte slice. -/
abbrev Bytes := List UInt8

deriving instance DecidableEq for Except

/-! ## crypto/sha256 -/

namespace Sha256

/-- Words are 32 bits wide. -/
def wordMod : Nat := 4294967296

/-- Addition of 32-bit words, wrapping around. -/
def add32 (a b : Nat) : Nat := (a + b) % wordMod

/-- Rotation to the right of a 32-bit word by `n` positions, `0 < n < 32`. -/
def rotr (x n : Nat) : Nat := ((x >>> n) ||| (x <<< (32 - n))) % wordMod

/-- Bitwise complement of a 32-bit word. -/
def not32 (x : Nat) : Nat := (wordMod - 1) ^^^ (x % wordMod)

/-- The round constants. -/
def K : List Nat :=
  [0x428a2f98, 0x71374491, 0xb5c0fbcf, 0xe9b5dba5, 0x3956c25b, 0x59f111f1, 0x923f82a4, 0xab1c5ed5,
   0xd807aa98, 0x12835b01, 0x243185be, 0x550c7dc3, 0x72be5d74, 0x80deb1fe, 0x9bdc06a7, 0xc19bf174,
   0xe49b69c1, 0xefbe4786, 0x0fc19dc6, 0x240ca1cc, 0x2de92c6f, 0x4a7484aa, 0x5cb0a9dc, 0x76f988da,
   0x983e5152, 0xa831c66d, 0xb00327c8, 0xbf597fc7, 0xc6e00bf3, 0xd5a79147, 0x06ca6351, 0x14292967,
   0x27b70a85, 0x2e1b2138, 0x4d2c6dfc, 0x53380d13, 0x650a7354, 0x766a0abb, 0x81c2c92e, 0x92722c85,
   0xa2bfe8a1, 0xa81a664b, 0xc24b8b70, 0xc76c51a3, 0xd192e819, 0xd6990624, 0xf40e3585, 0x106aa070,
   0x19a4c116, 0x1e376c08, 0x2748774c, 0x34b0bcb5, 0x391c0cb3, 0x4ed8aa4a, 0x5b9cca4f, 0x682e6ff3,
   0x748f82ee, 0x78a5636f, 0x84c87814, 0x8cc70208, 0x90befffa, 0xa4506ceb, 0xbef9a3f7, 0xc67178f2]

/-- The eight chaining words. -/
structure State where
  a : Nat
  b : Nat
  c : Nat
  d : Nat
  e : Nat
  f : Nat
  g : Nat
  h : Nat
deriving DecidableEq, Repr

/-- The initial chaining value. -/
def init : State :=
  ⟨0x6a09e667, 0xbb67ae85, 0x3c6ef372, 0xa54ff53a, 0x510e527f, 0x9b05688c, 0x1f83d9ab, 0x5be0cd19⟩

/-- Big-endian word made of four bytes. -/
def beWord (b0 b1 b2 b3 : Nat) : Nat := ((b0 * 256 + b1) * 256 + b2) * 256 + b3

/-- The sixteen big-endian words of a 64-byte block. -/
def blockWords (blk : List Nat) : List Nat :=
  (List.range 16).map fun i =>
    beWord (blk.getD (4 * i) 0) (blk.getD (4 * i + 1) 0) (blk.getD (4 * i + 2) 0)
      (blk.getD (4 * i + 3) 0)

/-- One step of the message schedule: the word `w[i]` from the words before it. -/
def nextWord (w : List Nat) : Nat :=
  let i := w.length
  let v1 := w.getD (i - 2) 0
  let t1 := rotr v1 17 ^^^ rotr v1 19 ^^^ (v1 >>> 10)
  let v2 := w.getD (i - 15) 0
  let t2 := rotr v2 7 ^^^ rotr v2 18 ^^^ (v2 >>> 3)
  add32 (add32 (add32 t1 (w.getD (i - 7) 0)) t2) (w.getD (i - 16) 0)

/-- The 64-word message schedule of a block. -/
def schedule (blk : List Nat) : List Nat :=
  (List.range 48).foldl (fun w _ => w ++ [nextWord w]) (blockWords blk)

/-- One round of the compression function, with round constant `k` and schedule word `w`. -/
def round (s : State) (k w : Nat) : State :=
  let t1 := add32 (add32 (add32 (add32 s.h (rotr s.e 6 ^^^ rotr s.e 11 ^^^ rotr s.e 25))
    ((s.e &&& s.f) ^^^ (not32 s.e &&& s.g))) k) w
  let t2 := add32 (rotr s.a 2 ^^^ rotr s.a 13 ^^^ rotr s.a 22)
    ((s.a &&& s.b) ^^^ (s.a &&& s.c) ^^^ (s.b &&& s.c))
  ⟨add32 t1 t2, s.a, s.b, s.c, add32 s.d t1, s.e, s.f, s.g⟩

/-- The compression function on one 64-byte block. -/
def compress (s : State) (blk : List Nat) : State :=
  let r := (List.zip K (schedule blk)).foldl (fun st kw => round st kw.1 kw.2) s
  ⟨add32 s.a r.a, add32 s.b r.b, add32 s.c r.c, add32 s.d r.d,
   add32 s.e r.e, add32 s.f r.f, add32 s.g r.g, add32 s.h r.h⟩

/-- The number of zero bytes between the `0x80` marker and the length field. -/
def zeroPad (len : Nat) : Nat := (64 + 55 - len % 64) % 64

/-- The eight big-endian bytes of the message length in bits. -/
def lengthBytes (len : Nat) : List Nat :=
  (List.range 8).map fun i => (len * 8 % 18446744073709551616) / 256 ^ (7 - i) % 256

/-- The padded message: a multiple of 64 bytes. -/
def pad (msg : List Nat) : List Nat :=
  msg ++ [128] ++ List.replicate (zeroPad msg.length) 0 ++ lengthBytes msg.length

/-- The four big-endian bytes of a word. -/
def wordBytes (w : Nat) : Bytes :=
  [UInt8.ofNat (w / 16777216 % 256), UInt8.ofNat (w / 65536 % 256), UInt8.ofNat (w / 256 % 256),
   UInt8.ofNat (w % 256)]

/-- The chaining value after all blocks of the padded message. -/
def digestState (msg : List Nat) : State :=
  let p := pad msg
  (List.range (p.length / 64)).foldl (fun s i => compress s ((p.drop (64 * i)).take 64)) init

/-- Function `sha256.Sum256`: the digest of a byte sequence. -/
def Sum256 (data : Bytes) : Bytes :=
  let s := digestState (data.map UInt8.toNat)
  wordBytes s.a ++ wordBytes s.b ++ wordBytes s.c ++ wordBytes s.d ++
    wordBytes s.e ++ wordBytes s.f ++ wordBytes s.g ++ wordBytes s.h

end Sha256


/-! ## Byte-level helpers of the block model -/

/-- The conversion `[]byte(s)` of a Go string: its UTF-8 bytes. -/
def stringBytes (s : String) : Bytes := s.toUTF8.data.toList

/-- Function `bytes.Join`: the slices of `s` with `sep` between consecutive ones. -/
def bytesJoin (s : List Bytes) (sep : Bytes) : Bytes := List.intercalate sep s

/-- The ASCII digit of `d < 10`. -/
def digitByte (d : Nat) : UInt8 := UInt8.ofNat (48 + d)

/-- The decimal digits of `n`, most significant first; `fuel` bounds the number of digits. -/
def natDigits : Nat → Nat → Bytes
  | 0, _ => []
  | fuel + 1, n => if n < 10 then [digitByte n] else natDigits fuel (n / 10) ++ [digitByte (n % 10)]

/-- Function `strconv.FormatInt(i, 10)` followed by the conversion to `[]byte`. -/
def FormatInt (i : Int) : Bytes :=
  match i with
  | Int.ofNat n => natDigits (n + 1) n
  | Int.negSucc n => 45 :: natDigits (n + 2) (n + 1)

/-! ## Block -/

/-- The Go struct `Block`. -/
structure Block where
  Timestamp : Int
  Data : String
  PrevHash : Bytes
  Hash : Bytes
deriving DecidableEq, Repr

/-- The bytes `headers` that `SetHash` hands to `sha256.Sum256`. -/
def Block.headers (b : Block) : Bytes :=
  let timestamp := FormatInt b.Timestamp
  bytesJoin [b.PrevHash, stringBytes b.Data, timestamp] []

/-- Method `Block.SetHash`; the one-second sleep changes no value and is left out. -/
def Block.SetHash (b : Block) : Block :=
  let hash := Sha256.Sum256 b.headers
  { b with Hash := hash }

/-- Function `NewBlock`; `now` is the value of `time.Now().Unix()`. -/
def NewBlock (now : Int) (data : String) (prevHash : Bytes) : Block :=
  Block.SetHash ⟨now, data, prevHash, []⟩

/-! ## The `blockchain` relation -/

/-- Errors reported by the store (`lib/pq`) or by `database/sql`. -/
inductive StoreError where
  | undefinedTable
  | duplicateTable
  | noRows
  | numericValueOutOfRange
  | characterNotInRepertoire
  | sequenceLimit
  | uniqueViolation (constraint : String)
deriving DecidableEq, Repr

/-- The text of `err.Error()`. -/
def StoreError.text : StoreError → String
  | .undefinedTable => "pq: relation \"blockchain\" does not exist"
  | .duplicateTable => "pq: relation \"blockchain\" already exists"
  | .noRows => "sql: no rows in result set"
  | .numericValueOutOfRange => "pq: value out of range for type integer"
  | .characterNotInRepertoire => "pq: invalid byte sequence for encoding \"UTF8\": 0x00"
  | .sequenceLimit => "pq: nextval: reached maximum value of sequence \"blockchain_id_seq\""
  | .uniqueViolation c => "pq: duplicate key value violates unique constraint \"" ++ c ++ "\""

/-- A row of `blockchain`: `id SERIAL PRIMARY KEY UNIQUE, created_on serial NOT NULL,
data varchar, prevHash BYTEA UNIQUE, hash BYTEA UNIQUE NOT NULL`; `none` is SQL `NULL`. -/
structure Row where
  id : Nat
  created_on : Int
  data : Option String
  prevHash : Option Bytes
  hash : Bytes
deriving DecidableEq, Repr

/-- The relation: its rows in the order they were stored, and the last value handed out by
the sequence behind `id`. -/
structure Table where
  rows : List Row
  idSeq : Nat
deriving DecidableEq, Repr

/-- The database: `none` when the relation `blockchain` does not exist. -/
abbrev DB := Option Table

/-- The rows of the relation, none when it does not exist. -/
def DB.rows (db : DB) : List Row :=
  match db with
  | none => []
  | some t => t.rows

/-- Values a `serial` (32-bit integer) column accepts. -/
def fitsInt4 (i : Int) : Prop := -2147483648 ≤ i ∧ i ≤ 2147483647

instance (i : Int) : Decidable (fitsInt4 i) := by
  unfold fitsInt4; infer_instance

/-- A `varchar` value cannot hold the code point zero. -/
def hasNul (s : String) : Prop := Char.ofNat 0 ∈ s.data

instance (s : String) : Decidable (hasNul s) := by
  unfold hasNul; infer_instance

/-- Statement `INSERT INTO blockchain(created_on,data,prevhash,hash) VALUES(...)` on an existing
relation (`prevHash = none` when the column is left out). A parameter the column type refuses
fails the statement before it runs; otherwise `id` takes the next value of its sequence, which
stays consumed when a uniqueness constraint then refuses the row. Returns the relation afterwards
and the error, if any. -/
def Table.insert (t : Table) (created_on : Int) (data : String) (prevHash : Option Bytes)
    (hash : Bytes) : Table × Option StoreError :=
  if ¬ fitsInt4 created_on then (t, some .numericValueOutOfRange)
  else if hasNul data then (t, some .characterNotInRepertoire)
  else if 2147483647 ≤ t.idSeq then (t, some .sequenceLimit)
  else
    let id := t.idSeq + 1
    let t1 : Table := ⟨t.rows, id⟩
    if ∃ r ∈ t.rows, r.id = id then (t1, some (.uniqueViolation "blockchain_pkey"))
    else if ∃ r ∈ t.rows, ∃ p, prevHash = some p ∧ r.prevHash = some p then
      (t1, some (.uniqueViolation "blockchain_prevhash_key"))
    else if ∃ r ∈ t.rows, r.hash = hash then
      (t1, some (.uniqueViolation "blockchain_hash_key"))
    else (⟨t.rows ++ [⟨id, created_on, some data, prevHash, hash⟩], id⟩, none)

/-- The `INSERT` statement sent to the database. -/
def DB.insert (db : DB) (created_on : Int) (data : String) (prevHash : Option Bytes)
    (hash : Bytes) : DB × Option StoreError :=
  match db with
  | none => (none, some .undefinedTable)
  | some t => ((t.insert created_on data prevHash hash).1, (t.insert created_on data prevHash hash).2)

/-- Statement `DROP TABLE IF EXISTS blockchain`. -/
def DB.dropTable (_ : DB) : DB := none

/-- Statement `CREATE TABLE blockchain (...)`. -/
def DB.createTable (db : DB) : DB × Option StoreError :=
  match db with
  | none => (some ⟨[], 0⟩, none)
  | some t => (some t, some .duplicateTable)

/-- The row with the greatest `id` among `rows`, after `best`. -/
def maxIdRow (rows : List Row) (best : Option Row) : Option Row :=
  rows.foldl (fun acc r =>
    match acc with
    | none => some r
    | some b => if b.id < r.id then some r else some b) best

/-- Query `SELECT "hash" FROM "blockchain" ORDER BY "id" DESC LIMIT 1` scanned into `prevHash`. -/
def readTailHash (db : DB) : Except StoreError Bytes :=
  match db with
  | none => .error .undefinedTable
  | some t =>
    match maxIdRow t.rows none with
    | none => .error .noRows
    | some r => .ok r.hash

/-- Function `initDB`; `now` is the clock read by `NewBlock`. Errors are logged or dropped. -/
def initDB (now : Int) (db : DB) : DB :=
  let db1 := db.dropTable
  let db2 := db1.createTable.1
  let b := NewBlock now "Genesis Block" []
  (db2.insert b.Timestamp b.Data none b.Hash).1

/-! ## The handlers -/

/-- What the handlers see of `*http.Request`: the body, absent or a byte sequence. -/
structure Request where
  Body : Option Bytes
deriving DecidableEq, Repr

/-- The decoder `json.NewDecoder(body).Decode(&data)` for the struct with the one field `data`:
the decoded `Data`, or the error text. -/
abbrev Decoder := Bytes → Except String String

/-- Function `ParseJSON` at the struct decoded by `AddBlock`. -/
def ParseJSON (decode : Decoder) (r : Option Request) : Except String String :=
  match r with
  | none => .error "No Body"
  | some q =>
    match q.Body with
    | none => .error "No Body"
    | some body => decode body

/-- What a handler has written to its `http.ResponseWriter`. -/
structure ResponseWriter where
  header : List (String × String)
  body : String
deriving DecidableEq, Repr

/-- Method `w.Header().Set(k, v)`. -/
def ResponseWriter.setHeader (w : ResponseWriter) (k v : String) : ResponseWriter :=
  { w with header := w.header.filter (fun kv => kv.1 ≠ k) ++ [(k, v)] }

/-- Function `fmt.Fprintln(w, s)`. -/
def ResponseWriter.println (w : ResponseWriter) (s : String) : ResponseWriter :=
  { w with body := w.body ++ s ++ "\n" }

/-- The text that reports a finished append. -/
def doneText : String := "\x7b\"done\": \"true\"\x7d"

/-- The writer after the four CORS headers of `AddBlock`. -/
def corsWriter : ResponseWriter :=
  (((ResponseWriter.mk [] "").setHeader "Access-Control-Allow-Origin" "*").setHeader
    "Access-Control-Allow-Methods" "GET, POST, DELETE, PUT, PATCH, OPTIONS").setHeader
    "Access-Control-Allow-Headers" "Content-Type, api_key, Authorization" |>.setHeader
    "Access-Control-Expose-Headers" "Authorization"

/-- The response tells the caller that the append is done. -/
def answersDone (w : ResponseWriter) : Prop :=
  w.header.lookup "Content-Type" = some "application/json" ∧ w.body = doneText ++ "\n"

instance (w : ResponseWriter) : Decidable (answersDone w) := by
  unfold answersDone; infer_instance

/-- An `AddBlock` call between its tail read and its insert. -/
structure Call where
  data : String
  prevHash : Bytes
deriving DecidableEq, Repr

/-- What one run of `AddBlock` leaves behind: the database, the response, the block it
constructed (if it got that far) and the error held by the `*sql.Row` of the `INSERT`, which
the handler never looks at. -/
structure Outcome where
  db : DB
  w : ResponseWriter
  newBlock : Option Block
  insertErr : Option StoreError
deriving DecidableEq, Repr

/-- The first half of `AddBlock`: decode the request and read the tail hash. An error ends the
call with the response written so far. -/
def addBlockRead (decode : Decoder) (r : Option Request) (db : DB) : Except ResponseWriter Call :=
  let w := corsWriter
  match ParseJSON decode r with
  | .error err => .error (w.println err)
  | .ok data =>
    match readTailHash db with
    | .error err => .error (w.println err.text)
    | .ok prevHash => .ok ⟨data, prevHash⟩

/-- The second half of `AddBlock`: build the block, send the `INSERT`, answer. -/
def addBlockWrite (now : Int) (c : Call) (db : DB) : Outcome :=
  let newBlock := NewBlock now c.data c.prevHash
  let res := db.insert newBlock.Timestamp newBlock.Data (some newBlock.PrevHash) newBlock.Hash
  ⟨res.1, (corsWriter.setHeader "Content-Type" "application/json").println doneText,
    some newBlock, res.2⟩

/-- Handler `AddBlock`, run without interruption; `now` is the clock read by `NewBlock`. -/
def AddBlock (decode : Decoder) (now : Int) (r : Option Request) (db : DB) : Outcome :=
  match addBlockRead decode r db with
  | .error w => ⟨db, w, none, none⟩
  | .ok c => addBlockWrite now c db

/-- A sequence of `AddBlock` calls, each finished before the next starts. -/
def runSeq (decode : Decoder) (calls : List (Int × Option Request)) (db : DB) : DB :=
  calls.foldl (fun d c => (AddBlock decode c.1 c.2 d).db) db

/-! ## Overlapping `AddBlock` calls -/

/-- The database together with the calls that have read the tail and not yet inserted, and
the responses sent so far. -/
structure Sys where
  db : DB
  calls : List Call
  replies : List ResponseWriter
deriving DecidableEq, Repr

/-- The atomic steps of the handlers: a new call runs up to its tail read, or the pending call
at position `k` builds its block at time `now` and sends its `INSERT`. -/
inductive Step where
  | recv (r : Option Request)
  | insert (k : Nat) (now : Int)
deriving DecidableEq, Repr

/-- One atomic step. -/
def Sys.step (decode : Decoder) (s : Sys) (st : Step) : Sys :=
  match st with
  | .recv r =>
    match addBlockRead decode r s.db with
    | .error w => { s with replies := s.replies ++ [w] }
    | .ok c => { s with calls := s.calls ++ [c] }
  | .insert k now =>
    match s.calls.get? k with
    | none => s
    | some c =>
      let out := addBlockWrite now c s.db
      ⟨out.db, s.calls.eraseIdx k, s.replies ++ [out.w]⟩

/-- Any interleaving of steps. -/
def Sys.run (decode : Decoder) (steps : List Step) (s : Sys) : Sys :=
  steps.foldl (Sys.step decode) s

/-- The system when `main` starts serving: `initDB` has run, no call is pending. -/
def boot (now : Int) (prior : DB) : Sys := ⟨initDB now prior, [], []⟩

/-! ## DisplayBlockChain -/

/-- Method `rows.Scan(&b.Timestamp, &b.Data, &b.PrevHash, &b.Hash)`: a `NULL` does not convert
to a `string`; a `NULL` byte column gives a nil slice. -/
def scanRow (r : Row) : Except String Block :=
  match r.data with
  | none => .error "sql: Scan error on column index 1, name \"data\": converting NULL to string is unsupported"
  | some d => .ok ⟨r.created_on, d, r.prevHash.getD [], r.hash⟩

/-- The loop of `DisplayBlockChain` over the rows the query returned, in the order it returned
them: a row that does not scan is skipped. The result is the slice `bc` given to the template. -/
def readChain (result : List Row) : List Block :=
  result.filterMap fun r =>
    match scanRow r with
    | .error _ => none
    | .ok b => some b

/-- What the query `SELECT "created_on","data","prevhash","hash" FROM "blockchain"` may return:
an error when the relation does not exist, else the rows of the relation in an order the
statement does not fix (it has no `ORDER BY`). -/
def IsQueryResult (db : DB) (result : Except StoreError (List Row)) : Prop :=
  match db, result with
  | none, .error e => e = .undefinedTable
  | some t, .ok rows => rows.Perm t.rows
  | _, _ => False

/-- Handler `DisplayBlockChain` up to the slice `bc` it gives to the template; `result` is what
`DB.Query` returned. A failed query ends the handler with the error text. -/
def DisplayBlockChain (result : Except StoreError (List Row)) : Except String (List Block) :=
  match result with
  | .error err => .error err.text
  | .ok rows => .ok (readChain rows)

/-- The rows in ascending order of `id`. -/
def byId (rows : List Row) : List Row := rows.insertionSort (fun a b => a.id ≤ b.id)

/-! ## Specification-side definitions -/

/-- The decimal text of an integer, stated with the positional digits of `Nat.digits`: an
optional minus sign, then the digits of the absolute value, most significant first, `0` being
written `0`. -/
def decimalText (i : Int) : Bytes :=
  (if i < 0 then [45] else []) ++
    (if i = 0 then [48] else (Nat.digits 10 i.natAbs).reverse.map digitByte)

/-- The relation as `initDB` and `AddBlock` keep it: ids ascend in storage order and stay
below the sequence, each row carries the hash of the row before it, hashes and previous
hashes are pairwise different. -/
structure TableInv (t : Table) : Prop where
  sorted : t.rows.Pairwise (fun a b => a.id < b.id)
  bound : ∀ r ∈ t.rows, r.id ≤ t.idSeq
  linked : t.rows.Chain' (fun P B => B.prevHash = some P.hash)
  uniqHash : t.rows.Pairwise (fun a b => a.hash ≠ b.hash)
  uniqPrev : t.rows.Pairwise (fun a b => a.prevHash ≠ b.prevHash)


/-- What holds of the running system: the relation exists and is well kept, and every pending
call holds the hash of a stored row. -/
def SysInv (s : Sys) : Prop :=
  ∃ t, s.db = some t ∧ TableInv t ∧ ∀ c ∈ s.calls, ∃ r ∈ t.rows, r.hash = c.prevHash

/-- The pending call at position `k` would, at time `now`, get its row stored although the
hash it read is not the hash of the present tail. -/
def acceptsStale (s : Sys) (k : Nat) (now : Int) : Prop :=
  ∃ c, s.calls.get? k = some c ∧ (addBlockWrite now c s.db).insertErr = none ∧
    readTailHash s.db ≠ .ok c.prevHash

/-- The ways `AddBlock` fails before its `INSERT`, with the error text of each: no request or
no body, a body the decoder refuses, a relation without rows at the tail read. -/
inductive FailsBeforeInsert (decode : Decoder) (r : Option Request) (db : DB) : String → Prop
  | noRequest : r = none → FailsBeforeInsert decode r db "No Body"
  | noBody (q : Request) : r = some q → q.Body = none → FailsBeforeInsert decode r db "No Body"
  | badBody (q : Request) (body : Bytes) (msg : String) : r = some q → q.Body = some body →
      decode body = .error msg → FailsBeforeInsert decode r db msg
  | emptyChain (D : String) (t : Table) : ParseJSON decode r = .ok D → db = some t →
      t.rows = [] → FailsBeforeInsert decode r db "sql: no rows in result set"

/-! ## Inputs of the worked examples -/

/-- A decoder for the examples: the body bytes are taken as the characters of `data`, and an
empty body is refused. -/
def asciiDecoder : Decoder := fun body =>
  if body = [] then .error "EOF" else .ok (String.mk (body.map fun b => Char.ofNat b.toNat))

/-- A request whose body is the text `s`. -/
def requestOf (s : String) : Option Request := some ⟨some (stringBytes s)⟩

/-- The relation right after `initDB` at time `now`. -/
def genesisTable (now : Int) : Table :=
  ((Table.mk [] 0).insert now "Genesis Block" none (NewBlock now "Genesis Block" []).Hash).1

/-- The hash of the genesis block made at time `now`. -/
def genesisHash (now : Int) : Bytes := (NewBlock now "Genesis Block" []).Hash
/-! ## The block model -/

theorem Sha256.Sum256_length (data : Bytes) : (Sha256.Sum256 data).length = 32 := by
  simp [Sha256.Sum256, Sha256.wordBytes]

theorem natDigits_eq_digits (fuel n : Nat) (h : n < fuel) :
    natDigits fuel n = if n = 0 then [48] else (Nat.digits 10 n).reverse.map digitByte := by
  induction fuel generalizing n with
  | zero => omega
  | succ fuel ih =>
    unfold natDigits
    by_cases h10 : n < 10
    · rw [if_pos h10]
      by_cases h0 : n = 0
      · subst h0; rfl
      · rw [if_neg h0, Nat.digits_of_lt 10 n h0 h10]; rfl
    · rw [if_neg h10]
      have hn : n ≠ 0 := by omega
      have hq : n / 10 ≠ 0 := by omega
      rw [if_neg hn, ih (n / 10) (by omega), if_neg hq]
      rw [Nat.digits_def' (by norm_num : 1 < 10) (by omega : 0 < n)]
      simp

theorem FormatInt_eq_decimalText (i : Int) : FormatInt i = decimalText i := by
  cases i with
  | ofNat n =>
    unfold FormatInt decimalText
    simp only [natDigits_eq_digits (n + 1) n (by omega)]
    have h1 : ¬ (Int.ofNat n < 0) := by simp
    rw [if_neg h1]
    by_cases h0 : n = 0
    · subst h0; rfl
    · have h2 : ¬ (Int.ofNat n = 0) := by simpa using h0
      rw [if_neg h0, if_neg h2]; simp
  | negSucc n =>
    unfold FormatInt decimalText
    simp only [natDigits_eq_digits (n + 2) (n + 1) (by omega)]
    have h1 : Int.negSucc n < 0 := Int.negSucc_lt_zero n
    have h2 : ¬ (Int.negSucc n = 0) := by simp
    rw [if_pos h1, if_neg h2, if_neg (by omega : ¬ (n + 1 = 0))]
    rfl

theorem Block.headers_eq (b : Block) :
    b.headers = b.PrevHash ++ stringBytes b.Data ++ FormatInt b.Timestamp := by
  simp [Block.headers, bytesJoin, List.intercalate, List.intersperse]

theorem SetHash_digest_aux (ts : Int) (data : String) (prevHash h0 : Bytes) :
    Block.SetHash ⟨ts, data, prevHash, h0⟩ =
        ⟨ts, data, prevHash, Sha256.Sum256 (prevHash ++ stringBytes data ++ decimalText ts)⟩ ∧
      NewBlock ts data prevHash =
        ⟨ts, data, prevHash, Sha256.Sum256 (prevHash ++ stringBytes data ++ decimalText ts)⟩ := by
  constructor
  · simp [Block.SetHash, Block.headers_eq, FormatInt_eq_decimalText]
  · simp [NewBlock, Block.SetHash, Block.headers_eq, FormatInt_eq_decimalText]

/-- Claim C1. For every data string, previous hash and timestamp, `SetHash` (and `NewBlock`
at the timestamp it captured) returns the block with the same `Timestamp`, `Data` and
`PrevHash` whose `Hash` is the SHA-256 digest of `PrevHash ++ bytes(Data) ++
decimal-text(Timestamp)`, and that digest is 32 bytes long. -/
theorem SetHash_digest (ts : Int) (data : String) (prevHash h0 : Bytes) :
    Block.SetHash ⟨ts, data, prevHash, h0⟩ =
        ⟨ts, data, prevHash, Sha256.Sum256 (prevHash ++ stringBytes data ++ decimalText ts)⟩ ∧
      NewBlock ts data prevHash =
        ⟨ts, data, prevHash, Sha256.Sum256 (prevHash ++ stringBytes data ++ decimalText ts)⟩ ∧
      (Block.SetHash ⟨ts, data, prevHash, h0⟩).Hash.length = 32 ∧
      (NewBlock ts data prevHash).Hash.length = 32 := by
  exact ⟨(SetHash_digest_aux ts data prevHash h0).1, (SetHash_digest_aux ts data prevHash h0).2,
    Sha256.Sum256_length _, Sha256.Sum256_length _⟩

/-- Claim C10. The bytes hashed by `SetHash` do not determine the fields: for every previous
hash, the block with `Data = "a1"`, `Timestamp = 23` and the block with `Data = "a"`,
`Timestamp = 123` differ in `Data` and in `Timestamp`, are hashed from the same bytes and get
the same `Hash`; so the map from (`PrevHash`, `Data`, `Timestamp`) to the hashed bytes is not
injective. -/
theorem SetHash_headers_not_injective :
    (∀ p h1 h2 : Bytes,
      (Block.mk 23 "a1" p h1).Data ≠ (Block.mk 123 "a" p h2).Data ∧
      (Block.mk 23 "a1" p h1).Timestamp ≠ (Block.mk 123 "a" p h2).Timestamp ∧
      (Block.mk 23 "a1" p h1).PrevHash = (Block.mk 123 "a" p h2).PrevHash ∧
      (Block.mk 23 "a1" p h1).headers = (Block.mk 123 "a" p h2).headers ∧
      (Block.mk 23 "a1" p h1).SetHash.Hash = (Block.mk 123 "a" p h2).SetHash.Hash) ∧
    ¬ Function.Injective (fun x : Bytes × String × Int => (Block.mk x.2.2 x.2.1 x.1 []).headers) := by
  have key : ∀ p h1 h2 : Bytes, (Block.mk 23 "a1" p h1).headers = (Block.mk 123 "a" p h2).headers := by
    intro p h1 h2
    rw [Block.headers_eq, Block.headers_eq, List.append_assoc, List.append_assoc]
    congr 1
  refine ⟨fun p h1 h2 => ⟨?_, ?_, rfl, key p h1 h2, ?_⟩, ?_⟩
  · show ("a1" : String) ≠ "a"
    decide
  · show (23 : Int) ≠ 123
    decide
  · show Sha256.Sum256 _ = Sha256.Sum256 _
    rw [key p h1 h2]
  · intro hinj
    have h := @hinj ([], "a1", 23) ([], "a", 123) (key [] [] [])
    exact absurd h (by decide)

/-! ## The store -/

theorem Table.insert_spec (t : Table) (ts : Int) (d : String) (p : Option Bytes) (h : Bytes) :
    ((t.insert ts d p h).2 = none ∧
      (t.insert ts d p h).1 = ⟨t.rows ++ [⟨t.idSeq + 1, ts, some d, p, h⟩], t.idSeq + 1⟩ ∧
      fitsInt4 ts ∧ ¬ hasNul d ∧ (∀ r ∈ t.rows, r.id ≠ t.idSeq + 1) ∧
      (∀ r ∈ t.rows, ∀ x, p = some x → r.prevHash ≠ some x) ∧ (∀ r ∈ t.rows, r.hash ≠ h)) ∨
    ((t.insert ts d p h).2 ≠ none ∧ (t.insert ts d p h).1.rows = t.rows ∧
      t.idSeq ≤ (t.insert ts d p h).1.idSeq) := by
  unfold Table.insert
  by_cases h1 : fitsInt4 ts
  · by_cases h2 : hasNul d
    · right; simp [h1, h2]
    · by_cases h3 : 2147483647 ≤ t.idSeq
      · right; simp [h1, h2, h3]
      · by_cases h4 : ∃ r ∈ t.rows, r.id = t.idSeq + 1
        · right; simp [h1, h2, h3, h4]
        · by_cases h5 : ∃ r ∈ t.rows, ∃ x, p = some x ∧ r.prevHash = some x
          · right; simp [h1, h2, h3, h4, h5]
          · by_cases h6 : ∃ r ∈ t.rows, r.hash = h
            · right; simp [h1, h2, h3, h4, h5, h6]
            · left
              refine ⟨by simp [h1, h2, h3, h4, h5, h6], by simp [h1, h2, h3, h4, h5, h6],
                h1, h2, ?_, ?_, ?_⟩
              · intro r hr e; exact h4 ⟨r, hr, e⟩
              · intro r hr x hp e; exact h5 ⟨r, hr, x, hp, e⟩
              · intro r hr e; exact h6 ⟨r, hr, e⟩
  · right; simp [h1]

theorem maxIdRow_append (l : List Row) (x : Row) (best : Option Row) :
    maxIdRow (l ++ [x]) best =
      match maxIdRow l best with
      | none => some x
      | some b => if b.id < x.id then some x else some b := by
  simp [maxIdRow, List.foldl_append]

theorem maxIdRow_mem (l : List Row) (best : Option Row) (r : Row)
    (h : maxIdRow l best = some r) : r ∈ l ∨ best = some r := by
  induction l using List.reverseRecOn with
  | nil => right; simpa [maxIdRow] using h
  | append_singleton l x ih =>
    rw [maxIdRow_append] at h
    cases hm : maxIdRow l best with
    | none => rw [hm] at h; simp at h; left; simp [h]
    | some b =>
      rw [hm] at h
      simp only at h
      split_ifs at h with hlt
      · simp at h; left; simp [h]
      · simp at h; subst h
        rcases ih hm with h1 | h1
        · left; simp [h1]
        · right; exact h1

theorem maxIdRow_sorted (l : List Row) (hs : l.Pairwise (fun a b => a.id < b.id)) :
    maxIdRow l none = l.getLast? := by
  induction l using List.reverseRecOn with
  | nil => rfl
  | append_singleton l x ih =>
    rw [List.pairwise_append] at hs
    rw [maxIdRow_append, ih hs.1, List.getLast?_append]
    cases hl : l.getLast? with
    | none => simp
    | some y =>
      have hy : y ∈ l := List.mem_of_getLast?_eq_some hl
      have : y.id < x.id := hs.2.2 y hy x (by simp)
      simp [this]

theorem linked_successor (l : List Row) (x : Row)
    (hc : (l ++ [x]).Chain' (fun P B => B.prevHash = some P.hash)) (R : Row) (hR : R ∈ l) :
    ∃ S ∈ l ++ [x], S.prevHash = some R.hash := by
  induction l with
  | nil => simp at hR
  | cons a l ih =>
    rw [List.cons_append] at hc
    rcases List.mem_cons.mp hR with rfl | hR
    · cases l with
      | nil =>
        simp only [List.nil_append, List.chain'_cons, List.chain'_singleton, and_true] at hc
        exact ⟨x, by simp, hc⟩
      | cons b l =>
        simp only [List.cons_append, List.chain'_cons] at hc
        exact ⟨b, by simp, hc.1⟩
    · obtain ⟨S, hS, hSp⟩ := ih (List.Chain'.tail hc) hR
      exact ⟨S, List.mem_cons_of_mem _ hS, hSp⟩

theorem accepted_prev_is_tail (t : Table) (inv : TableInv t) (ts : Int) (d : String)
    (h hash : Bytes) (hmem : ∃ r ∈ t.rows, r.hash = h)
    (hacc : (t.insert ts d (some h) hash).2 = none) :
    ∃ x, t.rows.getLast? = some x ∧ x.hash = h := by
  obtain ⟨R, hR, hRh⟩ := hmem
  rcases Table.insert_spec t ts d (some h) hash with ⟨-, -, -, -, -, hp, -⟩ | ⟨hrej, -⟩
  · rcases List.eq_nil_or_concat t.rows with hnil | ⟨l, x, hlx⟩
    · rw [hnil] at hR; simp at hR
    · refine ⟨x, by simp [hlx], ?_⟩
      have hc := inv.linked
      rw [hlx] at hc hR hp
      rw [List.concat_eq_append] at hc hR hp
      rcases List.mem_append.mp hR with hRl | hRx
      · obtain ⟨S, hS, hSp⟩ := linked_successor l x hc R hRl
        exact absurd (hRh ▸ hSp) (hp S hS h rfl)
      · simp at hRx; rw [← hRx]; exact hRh
  · exact absurd hacc hrej

theorem insert_preserves (t : Table) (inv : TableInv t) (ts : Int) (d : String)
    (h hash : Bytes) (hmem : ∃ r ∈ t.rows, r.hash = h) :
    TableInv (t.insert ts d (some h) hash).1 := by
  rcases Table.insert_spec t ts d (some h) hash with ⟨hacc, heq, -, -, -, hp, hh⟩ | ⟨-, hrows, hseq⟩
  · obtain ⟨x, hx, hxh⟩ := accepted_prev_is_tail t inv ts d h hash hmem hacc
    rw [heq]
    refine ⟨?_, ?_, ?_, ?_, ?_⟩
    · show (t.rows ++ [_]).Pairwise _
      rw [List.pairwise_append]
      refine ⟨inv.sorted, List.pairwise_singleton _ _, ?_⟩
      intro a ha b hb
      simp at hb; subst hb
      have := inv.bound a ha
      show a.id < t.idSeq + 1
      omega
    · intro r hr
      show r.id ≤ t.idSeq + 1
      rcases List.mem_append.mp hr with hr | hr
      · have := inv.bound r hr; omega
      · simp at hr; subst hr; exact le_refl _
    · show (t.rows ++ [_]).Chain' _
      rw [List.chain'_append]
      refine ⟨inv.linked, List.chain'_singleton _, ?_⟩
      intro a ha b hb
      rw [hx] at ha
      simp at ha hb
      subst ha; subst hb
      simp [hxh]
    · show (t.rows ++ [_]).Pairwise _
      rw [List.pairwise_append]
      refine ⟨inv.uniqHash, List.pairwise_singleton _ _, ?_⟩
      intro a ha b hb
      simp at hb; subst hb
      exact hh a ha
    · show (t.rows ++ [_]).Pairwise _
      rw [List.pairwise_append]
      refine ⟨inv.uniqPrev, List.pairwise_singleton _ _, ?_⟩
      intro a ha b hb
      simp at hb; subst hb
      exact hp a ha h rfl
  · refine ⟨?_, ?_, ?_, ?_, ?_⟩
    · rw [hrows]; exact inv.sorted
    · intro r hr
      rw [hrows] at hr
      have := inv.bound r hr; omega
    · rw [hrows]; exact inv.linked
    · rw [hrows]; exact inv.uniqHash
    · rw [hrows]; exact inv.uniqPrev

theorem initDB_eq (now : Int) (prior : DB) :
    initDB now prior =
      some ((Table.mk [] 0).insert now "Genesis Block" none (NewBlock now "Genesis Block" []).Hash).1 := by
  rfl

theorem initDB_inv (now : Int) (prior : DB) : ∃ t, initDB now prior = some t ∧ TableInv t := by
  refine ⟨_, initDB_eq now prior, ?_⟩
  rcases Table.insert_spec (Table.mk [] 0) now "Genesis Block" none
    (NewBlock now "Genesis Block" []).Hash with ⟨-, heq, -⟩ | ⟨-, hrows, -⟩
  · rw [heq]
    exact ⟨by simp, by simp, by simp, by simp, by simp⟩
  · refine ⟨?_, ?_, ?_, ?_, ?_⟩ <;> simp [hrows]

/-! ## Runs of the handlers -/

theorem readTailHash_sorted (t : Table) (inv : TableInv t) (x : Row)
    (hx : t.rows.getLast? = some x) : readTailHash (some t) = .ok x.hash := by
  simp [readTailHash, maxIdRow_sorted t.rows inv.sorted, hx]

theorem readTailHash_mem (t : Table) (h : Bytes) (hr : readTailHash (some t) = .ok h) :
    ∃ r ∈ t.rows, r.hash = h := by
  unfold readTailHash at hr
  cases hm : maxIdRow t.rows none with
  | none => simp [hm] at hr
  | some r =>
    simp only [hm, Except.ok.injEq] at hr
    rcases maxIdRow_mem t.rows none r hm with h1 | h1
    · exact ⟨r, h1, hr⟩
    · simp at h1

theorem addBlockRead_ok (decode : Decoder) (r : Option Request) (db : DB) (c : Call)
    (h : addBlockRead decode r db = .ok c) :
    ParseJSON decode r = .ok c.data ∧ readTailHash db = .ok c.prevHash := by
  unfold addBlockRead at h
  cases hp : ParseJSON decode r with
  | error e => simp [hp] at h
  | ok data =>
    cases ht : readTailHash db with
    | error e => simp [hp, ht] at h
    | ok prevHash =>
      simp only [hp, ht, Except.ok.injEq] at h
      subst h
      exact ⟨rfl, rfl⟩

theorem readTailHash_some (db : DB) (h : Bytes) (hr : readTailHash db = .ok h) :
    ∃ t, db = some t := by
  cases db with
  | none => simp [readTailHash] at hr
  | some t => exact ⟨t, rfl⟩

theorem addBlockWrite_db (now : Int) (c : Call) (t : Table) :
    (addBlockWrite now c (some t)).db =
        some (t.insert now c.data (some c.prevHash) (NewBlock now c.data c.prevHash).Hash).1 ∧
      (addBlockWrite now c (some t)).insertErr =
        (t.insert now c.data (some c.prevHash) (NewBlock now c.data c.prevHash).Hash).2 := by
  constructor <;> rfl

theorem insert_rows_mono (t : Table) (ts : Int) (d : String) (p : Option Bytes) (h : Bytes)
    (r : Row) (hr : r ∈ t.rows) : r ∈ (t.insert ts d p h).1.rows := by
  rcases Table.insert_spec t ts d p h with ⟨-, heq, -⟩ | ⟨-, hrows, -⟩
  · rw [heq]; exact List.mem_append_left _ hr
  · rw [hrows]; exact hr

theorem step_inv (decode : Decoder) (s : Sys) (st : Step) (inv : SysInv s) :
    SysInv (s.step decode st) := by
  obtain ⟨t, hdb, hinv, hcalls⟩ := inv
  cases st with
  | recv r =>
    cases hrd : addBlockRead decode r s.db with
    | error w =>
      simp only [Sys.step, hrd]
      exact ⟨t, hdb, hinv, hcalls⟩
    | ok c =>
      simp only [Sys.step, hrd]
      refine ⟨t, hdb, hinv, ?_⟩
      intro c1 hc1
      rcases List.mem_append.mp hc1 with h1 | h1
      · exact hcalls c1 h1
      · simp at h1; subst h1
        have := (addBlockRead_ok decode r s.db c1 hrd).2
        rw [hdb] at this
        exact readTailHash_mem t _ this
  | insert k now =>
    cases hk : s.calls.get? k with
    | none =>
      simp only [Sys.step, hk]
      exact ⟨t, hdb, hinv, hcalls⟩
    | some c =>
      simp only [Sys.step, hk]
      have hc : c ∈ s.calls := List.get?_mem hk
      refine ⟨(t.insert now c.data (some c.prevHash) (NewBlock now c.data c.prevHash).Hash).1,
        ?_, insert_preserves t hinv now c.data c.prevHash _ (hcalls c hc), ?_⟩
      · show (addBlockWrite now c s.db).db = _
        rw [hdb]; exact (addBlockWrite_db now c t).1
      · intro c1 hc1
        have hc1 : c1 ∈ s.calls := List.mem_of_mem_eraseIdx hc1
        obtain ⟨r, hr, hrh⟩ := hcalls c1 hc1
        exact ⟨r, insert_rows_mono t _ _ _ _ r hr, hrh⟩

theorem run_inv (decode : Decoder) (steps : List Step) (s : Sys) (inv : SysInv s) :
    SysInv (Sys.run decode steps s) := by
  induction steps generalizing s with
  | nil => exact inv
  | cons st steps ih => exact ih _ (step_inv decode s st inv)

theorem boot_inv (now : Int) (prior : DB) : SysInv (boot now prior) := by
  obtain ⟨t, ht, hinv⟩ := initDB_inv now prior
  exact ⟨t, ht, hinv, by simp [boot]⟩

theorem reachable_inv (decode : Decoder) (now0 : Int) (prior : DB) (steps : List Step) :
    SysInv (Sys.run decode steps (boot now0 prior)) :=
  run_inv decode steps _ (boot_inv now0 prior)

theorem accepted_reads_tail (s : Sys) (inv : SysInv s) (k : Nat) (now : Int) (c : Call)
    (hc : s.calls.get? k = some c) (hacc : (addBlockWrite now c s.db).insertErr = none) :
    readTailHash s.db = .ok c.prevHash := by
  obtain ⟨t, hdb, hinv, hcalls⟩ := inv
  rw [hdb] at hacc ⊢
  rw [(addBlockWrite_db now c t).2] at hacc
  obtain ⟨x, hx, hxh⟩ := accepted_prev_is_tail t hinv now c.data c.prevHash _
    (hcalls c (List.get?_mem hc)) hacc
  rw [readTailHash_sorted t hinv x hx, hxh]

theorem byId_sorted (t : Table) (inv : TableInv t) : byId t.rows = t.rows := by
  unfold byId
  apply List.Sorted.insertionSort_eq
  exact inv.sorted.imp (fun h => Nat.le_of_lt h)

theorem AddBlock_inv (decode : Decoder) (now : Int) (r : Option Request) (db : DB)
    (inv : ∃ t, db = some t ∧ TableInv t) :
    ∃ t, (AddBlock decode now r db).db = some t ∧ TableInv t := by
  obtain ⟨t, hdb, hinv⟩ := inv
  cases hrd : addBlockRead decode r db with
  | error w =>
    simp only [AddBlock, hrd]
    exact ⟨t, hdb, hinv⟩
  | ok c =>
    simp only [AddBlock, hrd]
    have ht := (addBlockRead_ok decode r db c hrd).2
    rw [hdb] at ht
    refine ⟨_, ?_, insert_preserves t hinv now c.data c.prevHash
      (NewBlock now c.data c.prevHash).Hash (readTailHash_mem t _ ht)⟩
    show (addBlockWrite now c db).db = _
    rw [hdb]; exact (addBlockWrite_db now c t).1

theorem runSeq_inv (decode : Decoder) (calls : List (Int × Option Request)) (db : DB)
    (inv : ∃ t, db = some t ∧ TableInv t) :
    ∃ t, runSeq decode calls db = some t ∧ TableInv t := by
  induction calls generalizing db with
  | nil => exact inv
  | cons c calls ih => exact ih _ (AddBlock_inv decode c.1 c.2 db inv)

/-- Claim C2. In every database reached from `initDB` by `AddBlock` calls that run one after
the other, any two rows that are neighbours in ascending order of `id` are linked: the later
one stores the hash of the earlier one as its previous hash. -/
theorem sequential_chain_linked (decode : Decoder) (now0 : Int) (prior : DB)
    (calls : List (Int × Option Request)) :
    (byId (runSeq decode calls (initDB now0 prior)).rows).Chain'
      (fun P B => B.prevHash = some P.hash ∧ B.prevHash.getD [] = P.hash) := by
  obtain ⟨t, ht, hinv⟩ := runSeq_inv decode calls _ (initDB_inv now0 prior)
  rw [ht]
  show (byId t.rows).Chain' _
  rw [byId_sorted t hinv]
  exact hinv.linked.imp (fun {P B} h => ⟨h, by simp [h]⟩)

/-- Claim C7. In every database reached from `initDB` by the steps of `AddBlock` calls, in any
interleaving, two different rows never hold the same hash, and never hold the same previous
hash unless it is empty. -/
theorem hashes_pairwise_distinct (decode : Decoder) (now0 : Int) (prior : DB)
    (steps : List Step) :
    (Sys.run decode steps (boot now0 prior)).db.rows.Pairwise
      (fun a b => a.hash ≠ b.hash ∧
        (a.prevHash.getD [] = b.prevHash.getD [] → a.prevHash.getD [] = [])) := by
  obtain ⟨t, ht, hinv, -⟩ := reachable_inv decode now0 prior steps
  rw [ht]
  show t.rows.Pairwise _
  have h := hinv.uniqHash.and hinv.uniqPrev
  refine h.imp ?_
  intro a b hab
  refine ⟨hab.1, ?_⟩
  intro he
  cases ha : a.prevHash with
  | none => rfl
  | some x =>
    cases hb : b.prevHash with
    | none => simpa [ha, hb] using he
    | some y =>
      rw [ha, hb] at he
      simp at he
      exact absurd (by rw [ha, hb, he]) hab.2

/-- Refutation of claim C8. No interleaving of the steps of `AddBlock` calls, started after
`initDB`, reaches a state in which a pending call gets its row stored while the hash it read
is not the hash of the present tail. -/
theorem no_stale_insert_accepted :
    ¬ ∃ (decode : Decoder) (now0 : Int) (prior : DB) (steps : List Step) (k : Nat) (now : Int),
      acceptsStale (Sys.run decode steps (boot now0 prior)) k now := by
  rintro ⟨decode, now0, prior, steps, k, now, c, hc, hacc, hne⟩
  exact hne (accepted_reads_tail _ (reachable_inv decode now0 prior steps) k now c hc hacc)

/-! ## Uninterrupted calls as interleavings -/

theorem step_pair (decode : Decoder) (s : Sys) (now : Int) (r : Option Request)
    (hs : s.calls = []) :
    ((s.step decode (.recv r)).step decode (.insert 0 now)).db = (AddBlock decode now r s.db).db ∧
      ((s.step decode (.recv r)).step decode (.insert 0 now)).calls = [] := by
  cases hrd : addBlockRead decode r s.db with
  | error w => simp [Sys.step, AddBlock, hrd, hs]
  | ok c => simp [Sys.step, AddBlock, hrd, hs]

theorem runSeq_as_run (decode : Decoder) (calls : List (Int × Option Request)) (s : Sys)
    (hs : s.calls = []) :
    (Sys.run decode (calls.flatMap fun c =>[.recv c.2, .insert 0 c.1]) s).db =
      runSeq decode calls s.db := by
  induction calls generalizing s with
  | nil => rfl
  | cons c calls ih =>
    have hp := step_pair decode s c.1 c.2 hs
    simp only [List.flatMap_cons, Sys.run, List.cons_append, List.nil_append, List.foldl_cons,
      runSeq]
    have := ih ((s.step decode (.recv c.2)).step decode (.insert 0 c.1)) hp.2
    simp only [Sys.run, runSeq] at this
    rw [this, hp.1]

/-! ## Appending, initialising, failing -/

theorem maxIdRow_append_max (l : List Row) (x : Row) (h : ∀ r ∈ l, r.id < x.id) :
    maxIdRow (l ++ [x]) none = some x := by
  rw [maxIdRow_append]
  cases hm : maxIdRow l none with
  | none => rfl
  | some b =>
    rcases maxIdRow_mem l none b hm with h1 | h1
    · simp [h b h1]
    · simp at h1

theorem AddBlock_ok (decode : Decoder) (now : Int) (r : Option Request) (db : DB)
    (D : String) (H : Bytes) (hparse : ParseJSON decode r = .ok D)
    (htail : readTailHash db = .ok H) :
    AddBlock decode now r db = addBlockWrite now ⟨D, H⟩ db := by
  simp [AddBlock, addBlockRead, hparse, htail]

theorem addBlockWrite_answersDone (now : Int) (c : Call) (db : DB) :
    answersDone (addBlockWrite now c db).w := by
  constructor <;> rfl

/-- Claim C3. Let the relation `t` have tail hash `H` (its id sequence being at or above every
stored id) and let the request decode to `D`. When the `INSERT` of `AddBlock` is accepted, the
relation afterwards is the rows of `t`, unchanged and in the same order, followed by exactly
one new row `B` with `B.data = D`, `B.prevHash = H`, the captured timestamp, and
`B.hash = SHA-256(H ++ bytes(D) ++ decimal-text(timestamp))`; `B.hash` differs from the hash of
every row of `t`, `B` has the greatest id, so it is the new tail, and the call answers done. -/
theorem AddBlock_appends_one (decode : Decoder) (now : Int) (r : Option Request) (t : Table)
    (D : String) (H : Bytes) (hseq : ∀ x ∈ t.rows, x.id ≤ t.idSeq)
    (hparse : ParseJSON decode r = .ok D) (htail : readTailHash (some t) = .ok H)
    (hacc : (AddBlock decode now r (some t)).insertErr = none) :
    ∃ B : Row, (AddBlock decode now r (some t)).db.rows = t.rows ++ [B] ∧
      B.data = some D ∧ B.prevHash = some H ∧ B.created_on = now ∧
      B.hash = Sha256.Sum256 (H ++ stringBytes D ++ decimalText now) ∧
      (∀ P ∈ t.rows, P.hash ≠ B.hash ∧ P.id < B.id) ∧
      readTailHash (AddBlock decode now r (some t)).db = .ok B.hash ∧
      (AddBlock decode now r (some t)).newBlock = some ⟨now, D, H, B.hash⟩ ∧
      answersDone (AddBlock decode now r (some t)).w := by
  rw [AddBlock_ok decode now r (some t) D H hparse htail] at hacc ⊢
  have hdb := addBlockWrite_db now ⟨D, H⟩ t
  rw [hdb.2] at hacc
  have hN : NewBlock now D H =
      ⟨now, D, H, Sha256.Sum256 (H ++ stringBytes D ++ decimalText now)⟩ :=
    (SetHash_digest_aux now D H []).2
  rcases Table.insert_spec t now D (some H) (NewBlock now D H).Hash with
    ⟨-, heq, -, -, -, -, hh⟩ | ⟨hrej, -⟩
  · have hlt : ∀ P ∈ t.rows, P.id < t.idSeq + 1 := fun P hP => by
      have := hseq P hP; omega
    refine ⟨⟨t.idSeq + 1, now, some D, some H, (NewBlock now D H).Hash⟩, ?_, rfl, rfl, rfl,
      ?_, ?_, ?_, ?_, addBlockWrite_answersDone now _ _⟩
    · rw [hdb.1]
      show (t.insert now D (some H) (NewBlock now D H).Hash).1.rows = _
      rw [heq]
    · show (NewBlock now D H).Hash = _
      rw [hN]
    · intro P hP
      exact ⟨hh P hP, hlt P hP⟩
    · rw [hdb.1]
      show readTailHash (some (t.insert now D (some H) (NewBlock now D H).Hash).1) = _
      rw [heq]
      simp only [readTailHash]
      rw [maxIdRow_append_max t.rows _ hlt]
    · show some (NewBlock now D H) = _
      rw [hN]
  · exact absurd hacc hrej

theorem AddBlock_appends_one_witness :
    (∀ x ∈ (genesisTable 1700000000).rows, x.id ≤ (genesisTable 1700000000).idSeq) ∧
    ParseJSON asciiDecoder (requestOf "hello") = .ok "hello" ∧
    readTailHash (some (genesisTable 1700000000)) = .ok (genesisHash 1700000000) ∧
    (AddBlock asciiDecoder 1700000001 (requestOf "hello")
      (some (genesisTable 1700000000))).insertErr = none ∧
    ∃ B : Row, (AddBlock asciiDecoder 1700000001 (requestOf "hello")
        (some (genesisTable 1700000000))).db.rows = (genesisTable 1700000000).rows ++ [B] ∧
      B.data = some "hello" ∧ B.prevHash = some (genesisHash 1700000000) ∧
      B.created_on = 1700000001 ∧
      B.hash = Sha256.Sum256
        (genesisHash 1700000000 ++ stringBytes "hello" ++ decimalText 1700000001) ∧
      (∀ P ∈ (genesisTable 1700000000).rows, P.hash ≠ B.hash ∧ P.id < B.id) ∧
      readTailHash (AddBlock asciiDecoder 1700000001 (requestOf "hello")
        (some (genesisTable 1700000000))).db = .ok B.hash ∧
      (AddBlock asciiDecoder 1700000001 (requestOf "hello")
        (some (genesisTable 1700000000))).newBlock =
          some ⟨1700000001, "hello", genesisHash 1700000000, B.hash⟩ ∧
      answersDone (AddBlock asciiDecoder 1700000001 (requestOf "hello")
        (some (genesisTable 1700000000))).w :=
  ⟨by decide!, by decide!, by decide!, by decide!,
    AddBlock_appends_one asciiDecoder 1700000001 (requestOf "hello") (genesisTable 1700000000)
      "hello" (genesisHash 1700000000) (by decide!) (by decide!) (by decide!) (by decide!)⟩

theorem initDB_genesis (now : Int) (prior : DB) (h : fitsInt4 now) :
    initDB now prior = some ⟨[⟨1, now, some "Genesis Block", none,
        Sha256.Sum256 (stringBytes "Genesis Block" ++ decimalText now)⟩], 1⟩ ∧
      readChain (initDB now prior).rows = [⟨now, "Genesis Block", [],
        Sha256.Sum256 (stringBytes "Genesis Block" ++ decimalText now)⟩] := by
  have hN := (SetHash_digest_aux now "Genesis Block" [] []).2
  have hnul : ¬ hasNul "Genesis Block" := by decide
  have e : initDB now prior = some ⟨[⟨1, now, some "Genesis Block", none,
      Sha256.Sum256 (stringBytes "Genesis Block" ++ decimalText now)⟩], 1⟩ := by
    rw [initDB_eq, hN]
    simp [Table.insert, h, hnul]
  refine ⟨e, ?_⟩
  rw [e]
  rfl

/-- Claim C4, at the failing input. When the clock read by `NewBlock` is 2147483648
(19 January 2038, 03:14:08 UTC), whatever the database held before, `initDB` leaves the
relation without any row: the column `created_on serial` refuses the timestamp and the error
of the `INSERT` is never looked at. -/
theorem initDB_no_genesis_at_2147483648 :
    ∀ prior : DB, initDB 2147483648 prior = some ⟨[], 0⟩ ∧
      (initDB 2147483648 prior).rows.length = 0 ∧
      readTailHash (initDB 2147483648 prior) = .error .noRows := by
  intro prior
  have e : initDB 2147483648 prior = some ⟨[], 0⟩ := by
    rw [initDB_eq]
    have h : ¬ fitsInt4 2147483648 := by decide
    simp [Table.insert, NewBlock, Block.SetHash, h]
  rw [e]
  exact ⟨rfl, rfl, rfl⟩

/-- Claim C5, at the failing input. Whatever the `INSERT` returns, the second half of
`AddBlock` answers done. In particular: after `initDB`, two calls read the same tail hash and
the first one inserts; the `INSERT` of the second one is then refused for its duplicate
previous hash, the relation keeps its rows, and the call nevertheless answers done. -/
theorem AddBlock_answers_done_on_rejected_insert :
    (∀ (now : Int) (c : Call) (db : DB), answersDone (addBlockWrite now c db).w) ∧
      (Sys.run asciiDecoder [.recv (requestOf "x"), .recv (requestOf "y"), .insert 0 1700000001]
        (boot 1700000000 none)).calls = [⟨"y", genesisHash 1700000000⟩] ∧
      (addBlockWrite 1700000002 ⟨"y", genesisHash 1700000000⟩
        (Sys.run asciiDecoder [.recv (requestOf "x"), .recv (requestOf "y"), .insert 0 1700000001]
          (boot 1700000000 none)).db).insertErr =
        some (.uniqueViolation "blockchain_prevhash_key") ∧
      (addBlockWrite 1700000002 ⟨"y", genesisHash 1700000000⟩
        (Sys.run asciiDecoder [.recv (requestOf "x"), .recv (requestOf "y"), .insert 0 1700000001]
          (boot 1700000000 none)).db).db.rows =
        (Sys.run asciiDecoder [.recv (requestOf "x"), .recv (requestOf "y"), .insert 0 1700000001]
          (boot 1700000000 none)).db.rows ∧
      answersDone (addBlockWrite 1700000002 ⟨"y", genesisHash 1700000000⟩
        (Sys.run asciiDecoder [.recv (requestOf "x"), .recv (requestOf "y"), .insert 0 1700000001]
          (boot 1700000000 none)).db).w ∧
      (Sys.run asciiDecoder [.recv (requestOf "x"), .recv (requestOf "y"), .insert 0 1700000001,
          .insert 0 1700000002] (boot 1700000000 none)).replies.all
        (fun w => decide (answersDone w)) = true ∧
      ((Sys.run asciiDecoder [.recv (requestOf "x"), .recv (requestOf "y"), .insert 0 1700000001,
          .insert 0 1700000002] (boot 1700000000 none)).db.rows.map (fun r => r.data)) =
        [some "Genesis Block", some "x"] := by
  refine ⟨fun now c db => addBlockWrite_answersDone now c db, ?_⟩
  decide!

theorem DisplayBlockChain_perm (t : Table) (rows : List Row)
    (h : IsQueryResult (some t) (.ok rows)) :
    ∃ bc, DisplayBlockChain (.ok rows) = .ok bc ∧ bc.Perm (readChain t.rows) := by
  refine ⟨readChain rows, rfl, ?_⟩
  have hp : rows.Perm t.rows := h
  exact hp.filterMap _

/-- Claim C6, at the failing input. The database holds the genesis row (id 1) and the row of
`hello` (id 2). The rows in the order `[id 2, id 1]` are a result the query of
`DisplayBlockChain` may return, since it has no `ORDER BY`; the slice the handler builds
from it has `hello` first and the genesis block second, which is not the stored blocks in
ascending order of id. -/
theorem unordered_result_not_by_id :
    IsQueryResult
        (AddBlock asciiDecoder 1700000001 (requestOf "hello") (initDB 1700000000 none)).db
        (.ok (AddBlock asciiDecoder 1700000001 (requestOf "hello")
          (initDB 1700000000 none)).db.rows.reverse) ∧
      (AddBlock asciiDecoder 1700000001 (requestOf "hello")
          (initDB 1700000000 none)).db.rows.reverse.map (fun r => r.id) = [2, 1] ∧
      DisplayBlockChain (.ok (AddBlock asciiDecoder 1700000001 (requestOf "hello")
          (initDB 1700000000 none)).db.rows.reverse) =
        .ok [⟨1700000001, "hello", genesisHash 1700000000,
              (NewBlock 1700000001 "hello" (genesisHash 1700000000)).Hash⟩,
             ⟨1700000000, "Genesis Block", [], genesisHash 1700000000⟩] ∧
      DisplayBlockChain (.ok (AddBlock asciiDecoder 1700000001 (requestOf "hello")
          (initDB 1700000000 none)).db.rows.reverse) ≠
        .ok (readChain (byId (AddBlock asciiDecoder 1700000001 (requestOf "hello")
          (initDB 1700000000 none)).db.rows)) := by
  refine ⟨?_, ?_, ?_, ?_⟩
  · have e : (AddBlock asciiDecoder 1700000001 (requestOf "hello") (initDB 1700000000 none)).db
        = some (((genesisTable 1700000000).insert 1700000001 "hello"
            (some (genesisHash 1700000000))
            (NewBlock 1700000001 "hello" (genesisHash 1700000000)).Hash).1) := by
      decide!
    rw [e]
    exact List.reverse_perm _
  · decide!
  · decide!
  · decide!

/-- Claim C8, amended. In every interleaving of the steps of `AddBlock` calls started after
`initDB`, a pending call whose `INSERT` is accepted holds the hash of the present tail, and the
rows afterwards, in ascending order of id, are still linked each to the one before. -/
theorem accepted_insert_extends_tail (decode : Decoder) (now0 : Int) (prior : DB)
    (steps : List Step) (k : Nat) (now : Int) (c : Call)
    (hc : (Sys.run decode steps (boot now0 prior)).calls.get? k = some c)
    (hacc : (addBlockWrite now c (Sys.run decode steps (boot now0 prior)).db).insertErr = none) :
    readTailHash (Sys.run decode steps (boot now0 prior)).db = .ok c.prevHash ∧
      (byId (Sys.run decode (steps ++ [.insert k now]) (boot now0 prior)).db.rows).Chain'
        (fun P B => B.prevHash = some P.hash) := by
  refine ⟨accepted_reads_tail _ (reachable_inv decode now0 prior steps) k now c hc hacc, ?_⟩
  obtain ⟨t, ht, hinv, -⟩ := reachable_inv decode now0 prior (steps ++ [.insert k now])
  rw [ht]
  show (byId t.rows).Chain' _
  rw [byId_sorted t hinv]
  exact hinv.linked

theorem accepted_insert_extends_tail_witness :
    (Sys.run asciiDecoder [.recv (requestOf "x"), .recv (requestOf "y")]
        (boot 1700000000 none)).calls.get? 1 = some ⟨"y", genesisHash 1700000000⟩ ∧
      (addBlockWrite 1700000001 ⟨"y", genesisHash 1700000000⟩
        (Sys.run asciiDecoder [.recv (requestOf "x"), .recv (requestOf "y")]
          (boot 1700000000 none)).db).insertErr = none ∧
      readTailHash (Sys.run asciiDecoder [.recv (requestOf "x"), .recv (requestOf "y")]
        (boot 1700000000 none)).db = .ok (Call.mk "y" (genesisHash 1700000000)).prevHash ∧
      (byId (Sys.run asciiDecoder
          ([.recv (requestOf "x"), .recv (requestOf "y")] ++ [.insert 1 1700000001])
          (boot 1700000000 none)).db.rows).Chain' (fun P B => B.prevHash = some P.hash) :=
  ⟨by decide!, by decide!,
    accepted_insert_extends_tail asciiDecoder 1700000000 none
      [.recv (requestOf "x"), .recv (requestOf "y")] 1 1700000001
      ⟨"y", genesisHash 1700000000⟩ (by decide!) (by decide!)⟩

/-- Claim C9. When `AddBlock` fails before its `INSERT` (no request or no body, a body that
does not decode, or a tail read on a relation without rows), it writes the error text and a
newline, does not answer done, constructs no block, sends no `INSERT` and returns the
database as it was. -/
theorem AddBlock_early_failure (decode : Decoder) (now : Int) (r : Option Request) (db : DB)
    (msg : String) (h : FailsBeforeInsert decode r db msg) :
    (AddBlock decode now r db).w.body = msg ++ "\n" ∧
      ¬ answersDone (AddBlock decode now r db).w ∧
      (AddBlock decode now r db).newBlock = none ∧
      (AddBlock decode now r db).insertErr = none ∧
      (AddBlock decode now r db).db = db := by
  have key : addBlockRead decode r db = .error (corsWriter.println msg) := by
    cases h with
    | noRequest hr => subst hr; rfl
    | noBody q hr hq => subst hr; simp [addBlockRead, ParseJSON, hq]
    | badBody q body msg hr hq hd => subst hr; simp [addBlockRead, ParseJSON, hq, hd]
    | emptyChain D t hp hdb ht =>
      subst hdb
      simp [addBlockRead, hp, readTailHash, ht, maxIdRow, StoreError.text]
  have e : AddBlock decode now r db = ⟨db, corsWriter.println msg, none, none⟩ := by
    simp only [AddBlock, key]
  rw [e]
  refine ⟨?_, ?_, rfl, rfl, rfl⟩
  · simp [ResponseWriter.println, corsWriter, ResponseWriter.setHeader]
  · intro hd
    have h1 : List.lookup "Content-Type" corsWriter.header = some "application/json" := hd.1
    exact absurd h1 (by decide)

theorem AddBlock_early_failure_witness :
    FailsBeforeInsert asciiDecoder (requestOf "x") (initDB 2147483648 none)
        "sql: no rows in result set" ∧
      (AddBlock asciiDecoder 1700000001 (requestOf "x") (initDB 2147483648 none)).w.body =
        "sql: no rows in result set" ++ "\n" ∧
      ¬ answersDone (AddBlock asciiDecoder 1700000001 (requestOf "x")
        (initDB 2147483648 none)).w ∧
      (AddBlock asciiDecoder 1700000001 (requestOf "x") (initDB 2147483648 none)).newBlock
        = none ∧
      (AddBlock asciiDecoder 1700000001 (requestOf "x") (initDB 2147483648 none)).insertErr
        = none ∧
      (AddBlock asciiDecoder 1700000001 (requestOf "x") (initDB 2147483648 none)).db =
        initDB 2147483648 none :=
  ⟨FailsBeforeInsert.emptyChain "x" ⟨[], 0⟩ (by decide!) (by decide!) rfl,
    AddBlock_early_failure asciiDecoder 1700000001 (requestOf "x") (initDB 2147483648 none)
      "sql: no rows in result set"
      (FailsBeforeInsert.emptyChain "x" ⟨[], 0⟩ (by decide!) (by decide!) rfl)⟩

/-! ## Checks of the embedding on known values -/

theorem Sum256_empty :
    (Sha256.Sum256 []).map UInt8.toNat =
      [227, 176, 196, 66, 152, 252, 28, 20, 154, 251, 244, 200, 153, 111, 185, 36,
       39, 174, 65, 228, 100, 155, 147, 76, 164, 149, 153, 27, 120, 82, 184, 85] := by
  decide!

theorem Sum256_abc :
    (Sha256.Sum256 (stringBytes "abc")).map UInt8.toNat =
      [186, 120, 22, 191, 143, 1, 207, 234, 65, 65, 64, 222, 93, 174, 34, 35,
       176, 3, 97, 163, 150, 23, 122, 156, 180, 16, 255, 97, 242, 0, 21, 173] := by
  decide!

theorem Sum256_two_blocks :
    (Sha256.Sum256 (stringBytes
        "abcdbcdecdefdefgefghfghighijhijkijkljklmklmnlmnomnopnopq")).map UInt8.toNat =
      [36, 141, 106, 97, 210, 6, 56, 184, 229, 192, 38, 147, 12, 62, 96, 57,
       163, 60, 228, 89, 100, 255, 33, 103, 246, 236, 237, 212, 25, 219, 6, 193] := by
  decide!

theorem FormatInt_values :
    FormatInt 1700000000 = stringBytes "1700000000" ∧ FormatInt 0 = stringBytes "0" ∧
      FormatInt (-42) = stringBytes "-42" := by
  decide!

theorem end_to_end :
    (readChain (initDB 1700000000 none).rows).map (fun b => b.Data) = ["Genesis Block"] ∧
      (runSeq asciiDecoder [(1700000001, requestOf "hello")]
        (initDB 1700000000 none)).rows.map (fun r => r.prevHash) =
        [none, some (genesisHash 1700000000)] ∧
      (readChain (byId (runSeq asciiDecoder
          [(1700000001, requestOf "hello"), (1700000003, requestOf "world")]
          (initDB 1700000000 none)).rows)).map (fun b => b.Data) =
        ["Genesis Block", "hello", "world"] ∧
      (runSeq asciiDecoder [(1700000001, requestOf "hello"), (1700000003, requestOf "world")]
        (initDB 1700000000 none)).rows.map (fun r => r.prevHash) =
        [none, some (genesisHash 1700000000),
          some (NewBlock 1700000001 "hello" (genesisHash 1700000000)).Hash] := by
  decide!

end Gochain
